import Mathlib

/-!
Shallow embedding of the DDPM diffusion core (`ddpm.py`, class `Diffusion`).

Tensors of shape `(batch, channels, height, width)` are modelled as a shape
quadruple together with a total valuation function; randomness (the torch
RNG) is modelled by injecting the drawn values as explicit arguments, so
that every operation is a pure function of its inputs and its entropy.
Failure paths (torch `IndexError` / `RuntimeError`) are modelled with
`Option` / `Except`.
-/

namespace DDPM

noncomputable section

/-- Valuation of a rank-4 real tensor: batch, channel, height, width index. -/
abbrev Val4 : Type := ℕ → ℕ → ℕ → ℕ → ℝ

/-- A rank-4 real tensor: its shape `(batch, channels, height, width)` and
its values. -/
structure Tens where
  shape : ℕ × ℕ × ℕ × ℕ
  val : ℕ → ℕ → ℕ → ℕ → ℝ

/-- A rank-4 unsigned-integer tensor (the `torch.uint8` output of `sample`). -/
structure TensN where
  shape : ℕ × ℕ × ℕ × ℕ
  val : ℕ → ℕ → ℕ → ℕ → ℕ

/-- `torch.linspace start end steps`: `steps` values linearly spaced from
`start` to `end`.  For `steps = 1` torch returns `[start]`, which the closed
formula also yields (the `i = 0` numerator vanishes). -/
def linspace (s e : ℝ) (steps : ℕ) : List ℝ :=
  (List.range steps).map fun i : ℕ => s + (e - s) * (i : ℝ) / ((steps : ℝ) - 1)

/-- `torch.cumprod` along dimension 0: entry `i` is the product of the first
`i + 1` entries of the input. -/
def cumprod (l : List ℝ) : List ℝ :=
  (List.range l.length).map fun i => (l.take (i + 1)).prod

/-- Error kinds surfaced by the torch primitives the diffusion code calls. -/
inductive Err where
  | indexError
  | runtimeError
deriving DecidableEq

/-- The mode of the external predictor (`model.train()` / `model.eval()`). -/
inductive Mode where
  | training
  | inference
deriving DecidableEq

/-- The `Diffusion` object's configuration fields, as stored by
`Diffusion.__init__` (the device field is out of scope). -/
structure Diffusion where
  noise_steps : ℕ
  beta_start : ℝ
  beta_end : ℝ
  img_size : ℕ

/-- `Diffusion.prepare_noise_schedule`:
`torch.linspace(beta_start, beta_end, noise_steps)`. -/
def Diffusion.prepare_noise_schedule (d : Diffusion) : List ℝ :=
  linspace d.beta_start d.beta_end d.noise_steps

/-- `self.beta` as stored by `__init__`. -/
def Diffusion.beta (d : Diffusion) : List ℝ :=
  d.prepare_noise_schedule

/-- `self.alpha = 1 - self.beta`. -/
def Diffusion.alpha (d : Diffusion) : List ℝ :=
  d.beta.map fun b => 1 - b

/-- `self.alpha_hat = torch.cumprod(self.alpha, dim=0)`. -/
def Diffusion.alpha_hat (d : Diffusion) : List ℝ :=
  cumprod d.alpha

/-- Scalar entry `beta[t]` (in-range lookups only are ever used). -/
def Diffusion.betaAt (d : Diffusion) (t : ℕ) : ℝ := d.beta.getD t 0

/-- Scalar entry `alpha[t]`. -/
def Diffusion.alphaAt (d : Diffusion) (t : ℕ) : ℝ := d.alpha.getD t 0

/-- Scalar entry `alpha_hat[t]`. -/
def Diffusion.alphaHatAt (d : Diffusion) (t : ℕ) : ℝ := d.alpha_hat.getD t 0

/-- `Diffusion.__init__`: stores the configuration and builds the schedule.
The only failing torch primitive on this path is `torch.linspace`, which
raises a `RuntimeError` for a negative step count; no parameter validation
of any kind is performed by the Python code. -/
def diffusionInit (noise_steps : ℤ) (beta_start beta_end : ℝ) (img_size : ℕ) :
    Except Err Diffusion :=
  if noise_steps < 0 then .error .runtimeError
  else .ok ⟨noise_steps.toNat, beta_start, beta_end, img_size⟩

/-- Python / torch fancy-indexing semantics for a 1-D tensor of length `len`:
an index `i` with `-len ≤ i < 0` wraps to `len + i`; used only under the
in-bounds guard. -/
def wrapIndex (len : ℕ) (i : ℤ) : ℕ :=
  if i < 0 then (i + len).toNat else i.toNat

/-- `Diffusion.noise_images(x_0, t)` for a batch of `n` samples with
timestep vector `t` and injected standard-normal draw `epsv` (the values of
`torch.randn_like(x_0)`).  Gathering `alpha_hat[t]` raises `IndexError`
(modelled as `none`) when any lane's index falls outside `[-T, T)`;
otherwise it returns
`(sqrt(alpha_hat[t]) * x_0 + sqrt(1 - alpha_hat[t]) * epsilon, epsilon)`
with the per-lane scalars broadcast over the non-batch dimensions. -/
def Diffusion.noise_images (d : Diffusion) (n : ℕ) (x0 : Tens) (t : ℕ → ℤ)
    (epsv : ℕ → ℕ → ℕ → ℕ → ℝ) : Option (Tens × Tens) :=
  if ∀ i < n, -(d.noise_steps : ℤ) ≤ t i ∧ t i < (d.noise_steps : ℤ) then
    let epsilon : Tens := ⟨x0.shape, epsv⟩
    some (⟨x0.shape, fun i c h w =>
      Real.sqrt (d.alphaHatAt (wrapIndex d.noise_steps (t i))) * x0.val i c h w +
      Real.sqrt (1 - d.alphaHatAt (wrapIndex d.noise_steps (t i))) * epsilon.val i c h w⟩,
      epsilon)
  else none

/-- `torch.randint(low, high, (n,))`: raises a `RuntimeError` unless
`low < high`; otherwise each draw is an integer in `[low, high)`, uniform
over that range.  The entropy is injected as `draw`, folded onto the
support by a Euclidean remainder. -/
def torchRandint (low high : ℤ) (draw : ℕ → ℕ) : Except Err (ℕ → ℤ) :=
  if low < high then .ok fun i => low + (draw i : ℤ) % (high - low)
  else .error .runtimeError

/-- `Diffusion.sample_timestep(n)`:
`torch.randint(low=1, high=self.noise_steps, size=(n,))`. -/
def Diffusion.sample_timestep (d : Diffusion) (draw : ℕ → ℕ) :
    Except Err (ℕ → ℤ) :=
  torchRandint 1 (d.noise_steps : ℤ) draw

/-- The timesteps visited by the generation loop:
`reversed(range(1, noise_steps))`, i.e. `T-1, T-2, ..., 1`. -/
def revSteps (T : ℕ) : List ℕ :=
  (List.range' 1 (T - 1)).reverse

/-- The loop's per-step noise draw:
`torch.randn_like(x) if n > 1 else torch.zeros_like(x)`; `zv` holds the
injected standard-normal values. -/
def sampleNoise (n : ℕ) (x : Tens) (zv : ℕ → ℕ → ℕ → ℕ → ℝ) : Tens :=
  ⟨x.shape, fun i c h w => if 1 < n then zv i c h w else 0⟩

/-- The body of the generation loop's update (line
`x = 1 / torch.sqrt(alpha) * (x - ((1 - alpha) / torch.sqrt(1 - alpha_hat))
* predicted_noise) + torch.sqrt(beta) * noise`), with the three per-step
scalars already gathered.  Elementwise ops give the result the shape of
`x`. -/
def ddpmUpdate (a ah b : ℝ) (x epshat noise : Tens) : Tens :=
  ⟨x.shape, fun i c h w =>
    1 / Real.sqrt a * (x.val i c h w -
      (1 - a) / Real.sqrt (1 - ah) * epshat.val i c h w) +
    Real.sqrt b * noise.val i c h w⟩

/-- The generation loop of `Diffusion.sample`, iterating over the given
timestep list.  `model` is the external predictor (`none` models a raised
failure, which aborts the loop); `z` injects the per-step
`torch.randn_like` values. -/
def Diffusion.sampleLoop (d : Diffusion) (model : Tens → ℕ → Option Tens)
    (n : ℕ) (z : ℕ → ℕ → ℕ → ℕ → ℕ → ℝ) :
    List ℕ → Tens → Option Tens
  | [], x => some x
  | t :: ts, x =>
    match model x t with
    | none => none
    | some epshat =>
      d.sampleLoop model n z ts
        (ddpmUpdate (d.alphaAt t) (d.alphaHatAt t) (d.betaAt t) x epshat
          (sampleNoise n x (z t)))

/-- The clamp to `[-1, 1]` (`x.clamp(-1, 1)`). -/
def clamp1 (v : ℝ) : ℝ := min 1 (max (-1) v)

/-- The postprocessing of `Diffusion.sample`:
`x = (x.clamp(-1, 1) + 1) / 2`, `x = (x * 255).type(torch.uint8)` — the
uint8 cast truncates toward zero, which on the non-negative values here is
the floor. -/
def postprocess (x : Tens) : TensN :=
  ⟨x.shape, fun i c h w => (⌊(clamp1 (x.val i c h w) + 1) / 2 * 255⌋).toNat⟩

/-- `Diffusion.sample(model, n)`.  The initial noise
`torch.randn((n, 3, img_size, img_size))` has its values injected as
`xinit`; `z` injects the per-iteration loop noise.  `mode0` is the
predictor's mode on entry; the Python code never reads it (it calls
`model.eval()` before the loop and `model.train()` after it, with no
`finally`), so the pair's second component — the predictor's mode on
return — is `training` on normal completion and `inference` when a
predictor failure propagates out of the loop. -/
def Diffusion.sample (d : Diffusion) (model : Tens → ℕ → Option Tens) (n : ℕ)
    (xinit : ℕ → ℕ → ℕ → ℕ → ℝ) (z : ℕ → ℕ → ℕ → ℕ → ℕ → ℝ)
    (mode0 : Mode) : Option TensN × Mode :=
  let x0 : Tens := ⟨(n, 3, d.img_size, d.img_size), xinit⟩
  match d.sampleLoop model n z (revSteps d.noise_steps) x0 with
  | none => (none, Mode.inference)
  | some x => (some (postprocess x), Mode.training)

/-- Valid schedule parameters in the sense of the spec: at least two steps
and `0 < beta_start < beta_end < 1`. -/
def Diffusion.Valid (d : Diffusion) : Prop :=
  2 ≤ d.noise_steps ∧ 0 < d.beta_start ∧ d.beta_start < d.beta_end ∧
    d.beta_end < 1

/-- A concrete configuration with five steps and valid beta bounds. -/
def dEx : Diffusion := ⟨5, 1/10, 1/5, 64⟩

/-- A concrete configuration with a single step and valid beta bounds. -/
def dT1 : Diffusion := ⟨1, 1/4, 1/2, 64⟩

/-- A concrete two-step configuration whose schedule entries have rational
square roots: `beta = [3/4, 15/16]`, `alpha = [1/4, 1/16]`,
`alpha_hat = [1/4, 1/64]`. -/
def dSq : Diffusion := ⟨2, 3/4, 15/16, 64⟩

/-- The schedule shape stated by the spec (claim C2), here for `T ≥ 2`:
linear spacing with exact endpoints, `alpha = 1 - beta`, `alpha_hat` the
running product of `alpha`, non-increasing and inside `(0, 1]`. -/
def ScheduleSpec (d : Diffusion) : Prop :=
  d.beta.length = d.noise_steps ∧
  (∀ t, t < d.noise_steps → d.betaAt t =
    d.beta_start + (d.beta_end - d.beta_start) * t /
      ((d.noise_steps : ℝ) - 1)) ∧
  d.betaAt 0 = d.beta_start ∧
  d.betaAt (d.noise_steps - 1) = d.beta_end ∧
  (∀ t, t < d.noise_steps → d.alphaAt t = 1 - d.betaAt t) ∧
  d.alphaHatAt 0 = d.alphaAt 0 ∧
  (∀ t, t < d.noise_steps → d.alphaHatAt t = (d.alpha.take (t + 1)).prod) ∧
  (∀ t, t + 1 < d.noise_steps → d.alphaHatAt (t + 1) ≤ d.alphaHatAt t) ∧
  (∀ t, t < d.noise_steps → 0 < d.alphaHatAt t ∧ d.alphaHatAt t ≤ 1)

/-- The all-zero valuation (e.g. an injected `randn` draw of zeros). -/
def zerosV : Val4 := fun _ _ _ _ => 0

/-- The all-one valuation. -/
def onesV : Val4 := fun _ _ _ _ => 1

/-- A concrete clean batch: one sample, all pixels 1. -/
def tensOnes : Tens := ⟨(1, 3, 64, 64), onesV⟩

/-- A predictor that succeeds and returns its input unchanged. -/
def idPredictor : Tens → ℕ → Option Tens := fun x _ => some x

/-- A predictor that raises on every call. -/
def failPredictor : Tens → ℕ → Option Tens := fun _ _ => none

/-- The spec's transition clause (claim C1), written from the spec's words:
one iteration maps `x` to
`1/sqrt(alpha_t) * (x - ((1-alpha_t)/sqrt(1-alpha_hat_t)) * epsilon_hat)
 + sqrt(beta_t) * z`, where `z` is fresh standard-normal noise when
`n > 1` and the zero array when `n = 1`. -/
def specTransition (d : Diffusion) (n t : ℕ) (x epshat : Tens)
    (zv : Val4) : Tens :=
  ⟨x.shape, fun i c h w =>
    1 / Real.sqrt (d.alphaAt t) * (x.val i c h w -
      (1 - d.alphaAt t) / Real.sqrt (1 - d.alphaHatAt t) *
        epshat.val i c h w) +
    Real.sqrt (d.betaAt t) * (if 1 < n then zv i c h w else 0)⟩

/-- Claim C1's property of the generation loop: the visited timestep list
is `T-1, T-2, ..., 1` (entry `k` is `T-1-k`, so it is strictly decreasing,
one step per iteration), and each iteration whose predictor call succeeds
performs exactly the spec's transition. -/
def GenLoopSpec (d : Diffusion) (n : ℕ) : Prop :=
  (revSteps d.noise_steps).length = d.noise_steps - 1 ∧
  (∀ k, k < d.noise_steps - 1 →
    (revSteps d.noise_steps).getD k 0 = d.noise_steps - 1 - k) ∧
  (∀ (model : Tens → ℕ → Option Tens) (z : ℕ → Val4) (t : ℕ) (ts : List ℕ)
      (x epshat : Tens), model x t = some epshat →
    d.sampleLoop model n z (t :: ts) x =
      d.sampleLoop model n z ts (specTransition d n t x epshat (z t)))

/-- Claim C3's property of the forward process: on an in-range timestep
vector it returns `(x_t, epsilon)` with `epsilon` exactly the injected
noise (same shape as `x_0`) and
`x_t = sqrt(alpha_hat[t_i]) * x_0 + sqrt(1 - alpha_hat[t_i]) * epsilon`
lane by lane, the scalars broadcast over the non-batch dimensions. -/
def NoiseImagesSpec (d : Diffusion) (n : ℕ) (x0 : Tens) (t : ℕ → ℤ)
    (epsv : Val4) : Prop :=
  ∃ xt eps, d.noise_images n x0 t epsv = some (xt, eps) ∧
    eps.shape = x0.shape ∧ eps.val = epsv ∧ xt.shape = x0.shape ∧
    ∀ i c h w, i < n → xt.val i c h w =
      Real.sqrt (d.alphaHatAt (t i).toNat) * x0.val i c h w +
        Real.sqrt (1 - d.alphaHatAt (t i).toNat) * eps.val i c h w

/-- Claim C7's property of a successful generation call: the returned
batch is the loop's final `x` postprocessed (clamp to `[-1,1]`, rescale by
`(x+1)/2`, scale by 255, truncate to unsigned 8-bit), with shape
`(n, 3, img_size, img_size)` and every value at most 255. -/
def SampleOutputSpec (d : Diffusion) (model : Tens → ℕ → Option Tens)
    (n : ℕ) (xinit : Val4) (z : ℕ → Val4) (mode0 : Mode) : Prop :=
  ∃ xf res,
    d.sampleLoop model n z (revSteps d.noise_steps)
      ⟨(n, 3, d.img_size, d.img_size), xinit⟩ = some xf ∧
    (d.sample model n xinit z mode0).1 = some res ∧
    res = postprocess xf ∧
    res.shape = (n, 3, d.img_size, d.img_size) ∧
    ∀ i c h w, res.val i c h w ≤ 255

/-- Claim C8's single-step round trip, in its exact algebraic form: with
`(x_t, epsilon)` produced by the forward process at timestep `t ≥ 1` and
the predictor returning exactly `epsilon`, one reverse update (no injected
noise, the `n = 1` policy) yields
`sqrt(alpha_hat[t-1]) * x_0 + ((alpha[t] - alpha_hat[t]) /
 (sqrt(alpha[t]) * sqrt(1 - alpha_hat[t]))) * epsilon` — the clean signal
is recovered with coefficient `sqrt(alpha_hat[t-1])`, not 1. -/
def RoundTripSpec (d : Diffusion) (t n : ℕ) (x0 : Tens) (epsv : Val4) :
    Prop :=
  ∃ xt eps,
    d.noise_images n x0 (fun _ => (t : ℤ)) epsv = some (xt, eps) ∧
    ∀ i c h w, i < n →
      (ddpmUpdate (d.alphaAt t) (d.alphaHatAt t) (d.betaAt t) xt eps
        (sampleNoise 1 xt zerosV)).val i c h w =
      Real.sqrt (d.alphaHatAt (t - 1)) * x0.val i c h w +
        (d.alphaAt t - d.alphaHatAt t) /
          (Real.sqrt (d.alphaAt t) * Real.sqrt (1 - d.alphaHatAt t)) *
          epsv i c h w

theorem length_linspace (s e : ℝ) (n : ℕ) : (linspace s e n).length = n := by
  rw [linspace, List.length_map, List.length_range]

theorem linspace_getD (s e : ℝ) (n t : ℕ) (ht : t < n) :
    (linspace s e n).getD t 0 = s + (e - s) * t / ((n : ℝ) - 1) := by
  rw [List.getD_eq_getElem _ _ (by simpa [length_linspace] using ht)]
  simp only [linspace, List.getElem_map, List.getElem_range]

theorem Diffusion.beta_length (d : Diffusion) :
    d.beta.length = d.noise_steps := by
  simp [Diffusion.beta, Diffusion.prepare_noise_schedule, length_linspace]

theorem Diffusion.alpha_length (d : Diffusion) :
    d.alpha.length = d.noise_steps := by
  simp [Diffusion.alpha, d.beta_length]

theorem Diffusion.alpha_hat_length (d : Diffusion) :
    d.alpha_hat.length = d.noise_steps := by
  simp [Diffusion.alpha_hat, cumprod, d.alpha_length]

theorem Diffusion.betaAt_eq (d : Diffusion) (t : ℕ) (ht : t < d.noise_steps) :
    d.betaAt t =
      d.beta_start + (d.beta_end - d.beta_start) * t /
        ((d.noise_steps : ℝ) - 1) :=
  linspace_getD _ _ _ _ ht

theorem Diffusion.alphaAt_eq (d : Diffusion) (t : ℕ) (ht : t < d.noise_steps) :
    d.alphaAt t = 1 - d.betaAt t := by
  have hb : t < d.beta.length := by rw [d.beta_length]; exact ht
  have ha : t < d.alpha.length := by rw [d.alpha_length]; exact ht
  rw [Diffusion.alphaAt, Diffusion.betaAt, List.getD_eq_getElem _ _ ha,
    List.getD_eq_getElem _ _ hb]
  simp [Diffusion.alpha]

theorem cumprod_getD (l : List ℝ) (t : ℕ) (ht : t < l.length) :
    (cumprod l).getD t 0 = (l.take (t + 1)).prod := by
  rw [List.getD_eq_getElem _ _ (by simpa [cumprod] using ht)]
  simp [cumprod]

theorem Diffusion.alphaHatAt_eq (d : Diffusion) (t : ℕ)
    (ht : t < d.noise_steps) :
    d.alphaHatAt t = (d.alpha.take (t + 1)).prod :=
  cumprod_getD _ _ (by rw [d.alpha_length]; exact ht)

theorem Diffusion.alphaHatAt_zero (d : Diffusion) (h : 0 < d.noise_steps) :
    d.alphaHatAt 0 = d.alphaAt 0 := by
  have ha : 0 < d.alpha.length := by rw [d.alpha_length]; exact h
  rw [d.alphaHatAt_eq 0 h, List.prod_take_succ _ _ ha, Diffusion.alphaAt,
    List.getD_eq_getElem _ _ ha]
  simp

theorem Diffusion.alphaHatAt_succ (d : Diffusion) (t : ℕ)
    (ht : t + 1 < d.noise_steps) :
    d.alphaHatAt (t + 1) = d.alphaHatAt t * d.alphaAt (t + 1) := by
  have ha : t + 1 < d.alpha.length := by rw [d.alpha_length]; exact ht
  rw [d.alphaHatAt_eq (t + 1) ht, List.prod_take_succ _ _ ha,
    d.alphaHatAt_eq t (Nat.lt_of_succ_lt ht), Diffusion.alphaAt,
    List.getD_eq_getElem _ _ ha]

theorem Diffusion.betaAt_bounds (d : Diffusion) (hv : d.Valid) (t : ℕ)
    (ht : t < d.noise_steps) :
    d.beta_start ≤ d.betaAt t ∧ d.betaAt t ≤ d.beta_end := by
  obtain ⟨hT, hs, hse, he⟩ := hv
  have hT1 : (0 : ℝ) < (d.noise_steps : ℝ) - 1 := by
    have : (2 : ℝ) ≤ (d.noise_steps : ℝ) := by exact_mod_cast hT
    linarith
  have htle : (t : ℝ) ≤ (d.noise_steps : ℝ) - 1 := by
    have : (t : ℝ) + 1 ≤ (d.noise_steps : ℝ) := by exact_mod_cast ht
    linarith
  rw [d.betaAt_eq t ht]
  constructor
  · have : 0 ≤ (d.beta_end - d.beta_start) * t / ((d.noise_steps : ℝ) - 1) :=
      div_nonneg (mul_nonneg (by linarith) (Nat.cast_nonneg t)) hT1.le
    linarith
  · have hle : (d.beta_end - d.beta_start) * t / ((d.noise_steps : ℝ) - 1) ≤
        d.beta_end - d.beta_start := by
      rw [div_le_iff₀ hT1]
      have := mul_le_mul_of_nonneg_left htle (by linarith :
        (0 : ℝ) ≤ d.beta_end - d.beta_start)
      linarith
    linarith

theorem Diffusion.alphaAt_bounds (d : Diffusion) (hv : d.Valid) (t : ℕ)
    (ht : t < d.noise_steps) : 0 < d.alphaAt t ∧ d.alphaAt t < 1 := by
  obtain ⟨hlo, hhi⟩ := d.betaAt_bounds hv t ht
  have hs := hv.2.1
  have he := hv.2.2.2
  rw [d.alphaAt_eq t ht]
  exact ⟨by linarith, by linarith⟩

theorem Diffusion.alphaHatAt_bounds (d : Diffusion) (hv : d.Valid) (t : ℕ)
    (ht : t < d.noise_steps) : 0 < d.alphaHatAt t ∧ d.alphaHatAt t ≤ 1 := by
  induction t with
  | zero =>
    rw [d.alphaHatAt_zero (by omega : 0 < d.noise_steps)]
    obtain ⟨h0, h1⟩ := d.alphaAt_bounds hv 0 ht
    exact ⟨h0, h1.le⟩
  | succ k ih =>
    obtain ⟨ih0, ih1⟩ := ih (Nat.lt_of_succ_lt ht)
    obtain ⟨h0, h1⟩ := d.alphaAt_bounds hv (k + 1) ht
    rw [d.alphaHatAt_succ k ht]
    exact ⟨mul_pos ih0 h0, le_trans
      (mul_le_mul ih1 h1.le h0.le zero_le_one) (by simp)⟩

theorem Diffusion.alphaHatAt_antitone (d : Diffusion) (hv : d.Valid) (t : ℕ)
    (ht : t + 1 < d.noise_steps) :
    d.alphaHatAt (t + 1) ≤ d.alphaHatAt t := by
  obtain ⟨ih0, -⟩ := d.alphaHatAt_bounds hv t (Nat.lt_of_succ_lt ht)
  obtain ⟨-, h1⟩ := d.alphaAt_bounds hv (t + 1) ht
  rw [d.alphaHatAt_succ t ht]
  nlinarith

/-- C2 (amended, `T ≥ 2`): the schedule is `T` linearly spaced beta values
with exact endpoints `beta_start` and `beta_end`, `alpha[t] = 1 - beta[t]`,
`alpha_hat[t]` the product of `alpha[0..t]`, with `alpha_hat[0] = alpha[0]`,
`alpha_hat` monotonically non-increasing and every entry in `(0, 1]`. -/
theorem C2_schedule_spec (d : Diffusion) (hv : d.Valid) : ScheduleSpec d := by
  have hT : 2 ≤ d.noise_steps := hv.1
  have hT2 : (2 : ℝ) ≤ (d.noise_steps : ℝ) := by exact_mod_cast hT
  have hne : (d.noise_steps : ℝ) - 1 ≠ 0 := by intro h; linarith
  refine ⟨d.beta_length, fun t ht => d.betaAt_eq t ht, ?_, ?_,
    fun t ht => d.alphaAt_eq t ht,
    d.alphaHatAt_zero (by omega),
    fun t ht => d.alphaHatAt_eq t ht,
    fun t ht => d.alphaHatAt_antitone hv t ht,
    fun t ht => d.alphaHatAt_bounds hv t ht⟩
  · rw [d.betaAt_eq 0 (by omega)]
    norm_num
  · have hc : ((d.noise_steps - 1 : ℕ) : ℝ) = (d.noise_steps : ℝ) - 1 := by
      have h1 : (1 : ℕ) ≤ d.noise_steps := by omega
      push_cast [Nat.cast_sub h1]
      ring
    rw [d.betaAt_eq _ (by omega), hc]
    field_simp

/-- C2 witness: the valid five-step configuration `(5, 1/10, 1/5)`
satisfies the schedule specification. -/
theorem C2_schedule_spec_witness : dEx.Valid ∧ ScheduleSpec dEx :=
  ⟨by refine ⟨by norm_num [dEx], ?_, ?_, ?_⟩ <;> norm_num [dEx],
   C2_schedule_spec dEx
     ⟨by norm_num [dEx], by norm_num [dEx], by norm_num [dEx],
      by norm_num [dEx]⟩⟩

/-- C2 counterexample: the claim quantifies over every `noise_steps > 0`,
but at `noise_steps = 1` (with valid bounds `1/4 < 1/2`) torch's
`linspace` returns the single value `beta_start`, so
`beta[T-1] ≠ beta_end`. -/
theorem C2_counterexample :
    0 < dT1.noise_steps ∧ 0 < dT1.beta_start ∧
    dT1.beta_start < dT1.beta_end ∧ dT1.beta_end < 1 ∧
    dT1.betaAt (dT1.noise_steps - 1) ≠ dT1.beta_end := by
  refine ⟨by norm_num [dT1], by norm_num [dT1], by norm_num [dT1],
    by norm_num [dT1], ?_⟩
  rw [show dT1.noise_steps - 1 = 0 from rfl,
    dT1.betaAt_eq 0 (by norm_num [dT1])]
  norm_num [dT1]

/-- C5 (amended): construction performs no parameter validation at all —
it fails (with torch's `RuntimeError` from `linspace`) exactly when the
step count is negative, and for every non-negative step count and
arbitrary real beta bounds it returns the object unchanged, with no
`ConfigError` for non-positive `beta_start`, out-of-order bounds, or
bounds outside `(0,1)`. -/
theorem C5_init_no_validation (noise_steps : ℤ) (s e : ℝ) (img : ℕ) :
    (noise_steps < 0 →
      diffusionInit noise_steps s e img = .error .runtimeError) ∧
    (0 ≤ noise_steps →
      diffusionInit noise_steps s e img =
        .ok ⟨noise_steps.toNat, s, e, img⟩) := by
  constructor
  · intro h
    rw [diffusionInit, if_pos h]
  · intro h
    rw [diffusionInit, if_neg (not_lt.mpr h)]

/-- C5 witness: at step count 5 with the invalid bounds
`beta_start = -1/10 ≤ 0` and `beta_end = 2 > 1`, construction succeeds. -/
theorem C5_init_no_validation_witness :
    diffusionInit 5 (-(1/10)) 2 64 = .ok ⟨5, -(1/10), 2, 64⟩ :=
  (C5_init_no_validation 5 (-(1/10)) 2 64).2 (by norm_num)

/-- C5 counterexample: `beta_start = -1/10 ≤ 0` (and `beta_end = 2`
outside `(0,1)`), yet schedule construction does not fail — it returns an
object whose schedule has length 5. -/
theorem C5_counterexample :
    (-(1/10) : ℝ) ≤ 0 ∧ ¬((2 : ℝ) < 1) ∧
    ∃ d : Diffusion, diffusionInit 5 (-(1/10)) 2 64 = .ok d ∧
      d.beta.length = 5 := by
  refine ⟨by norm_num, by norm_num, ⟨5, -(1/10), 2, 64⟩, rfl, ?_⟩
  rw [Diffusion.beta_length]

/-- C9: for `noise_steps ≥ 2`, the timestep sampler succeeds and every
draw lies in the inclusive range `[1, T-1]`; in particular 0 is never
produced.  (The uniformity of `torch.randint` over that support is the
random primitive's contract, carried by the injected entropy.) -/
theorem C9_sample_timestep_range (d : Diffusion) (hT : 2 ≤ d.noise_steps)
    (draw : ℕ → ℕ) :
    ∃ f, d.sample_timestep draw = .ok f ∧
      ∀ i, 1 ≤ f i ∧ f i ≤ (d.noise_steps : ℤ) - 1 ∧ f i ≠ 0 := by
  have h2 : (2 : ℤ) ≤ (d.noise_steps : ℤ) := by exact_mod_cast hT
  have h1 : (1 : ℤ) < (d.noise_steps : ℤ) := by linarith
  refine ⟨fun i => 1 + (draw i : ℤ) % ((d.noise_steps : ℤ) - 1), ?_, ?_⟩
  · rw [Diffusion.sample_timestep, torchRandint, if_pos h1]
  · intro i
    have hpos : (0 : ℤ) < (d.noise_steps : ℤ) - 1 := by linarith
    have hlo : 0 ≤ (draw i : ℤ) % ((d.noise_steps : ℤ) - 1) :=
      Int.emod_nonneg _ (ne_of_gt hpos)
    have hhi := Int.emod_lt_of_pos (draw i : ℤ) hpos
    show 1 ≤ 1 + (draw i : ℤ) % ((d.noise_steps : ℤ) - 1) ∧
      1 + (draw i : ℤ) % ((d.noise_steps : ℤ) - 1) ≤ (d.noise_steps : ℤ) - 1 ∧
      1 + (draw i : ℤ) % ((d.noise_steps : ℤ) - 1) ≠ 0
    have hgt : (0 : ℤ) < 1 + (draw i : ℤ) % ((d.noise_steps : ℤ) - 1) := by
      linarith
    exact ⟨by linarith, by linarith, ne_of_gt hgt⟩

/-- C9 witness: the five-step configuration with the constant-zero entropy
stream. -/
theorem C9_sample_timestep_range_witness :
    2 ≤ dEx.noise_steps ∧
    ∃ f, dEx.sample_timestep (fun _ => 0) = .ok f ∧
      ∀ i, 1 ≤ f i ∧ f i ≤ (dEx.noise_steps : ℤ) - 1 ∧ f i ≠ 0 :=
  ⟨by decide, C9_sample_timestep_range dEx (by decide) (fun _ => 0)⟩

/-- C10: with `noise_steps = 1` the timestep sampler always fails —
`torch.randint(low=1, high=1, ...)` raises because its range `[1, 1)` is
empty — so it never returns a timestep. -/
theorem C10_sample_timestep_fails (d : Diffusion)
    (hd : d.noise_steps = 1) (draw : ℕ → ℕ) :
    d.sample_timestep draw = .error .runtimeError := by
  rw [Diffusion.sample_timestep, torchRandint, hd, if_neg (by norm_num)]

/-- C10 witness: the one-step configuration fails for any entropy. -/
theorem C10_sample_timestep_fails_witness :
    dT1.sample_timestep (fun _ => 0) = .error .runtimeError :=
  C10_sample_timestep_fails dT1 rfl (fun _ => 0)

/-- C6 (amended): the forward process fails (torch raises `IndexError`
while gathering `alpha_hat[t]`) exactly when some lane's timestep lies
outside `[-T, T)`; a negative `t_i` in `[-T, 0)` is Python-style
wrap-around indexing, not an error. -/
theorem C6_noise_images_range (d : Diffusion) (n : ℕ) (x0 : Tens)
    (t : ℕ → ℤ) (epsv : Val4) :
    d.noise_images n x0 t epsv = none ↔
      ∃ i < n, t i < -(d.noise_steps : ℤ) ∨ (d.noise_steps : ℤ) ≤ t i := by
  rw [Diffusion.noise_images]
  split_ifs with h
  · refine iff_of_false (by simp) ?_
    rintro ⟨i, hi, hcase⟩
    obtain ⟨h1, h2⟩ := h i hi
    rcases hcase with h3 | h3 <;> omega
  · refine iff_of_true rfl ?_
    push_neg at h
    obtain ⟨i, hi, hcond⟩ := h
    refine ⟨i, hi, ?_⟩
    by_cases hneg : -(d.noise_steps : ℤ) ≤ t i
    · exact Or.inr (hcond hneg)
    · exact Or.inl (by omega)

/-- C6 counterexample: `t_0 = -1` lies outside `[0, T)`, yet on the
two-step configuration the forward process does not fail — torch wraps the
negative index and returns a noised sample. -/
theorem C6_counterexample :
    ((-1 : ℤ) < 0 ∨ (dSq.noise_steps : ℤ) ≤ -1) ∧
    (dSq.noise_images 1 tensOnes (fun _ => -1) zerosV).isSome = true := by
  exact ⟨Or.inl (by norm_num), rfl⟩

theorem sampleLoop_shape (d : Diffusion) (model : Tens → ℕ → Option Tens)
    (n : ℕ) (z : ℕ → Val4) :
    ∀ (ts : List ℕ) (x y : Tens),
      d.sampleLoop model n z ts x = some y → y.shape = x.shape := by
  intro ts
  induction ts with
  | nil =>
    intro x y h
    simp only [Diffusion.sampleLoop, Option.some.injEq] at h
    rw [← h]
  | cons t ts ih =>
    intro x y h
    cases hm : model x t with
    | none =>
      simp only [Diffusion.sampleLoop, hm] at h
      exact Option.noConfusion h
    | some eh =>
      simp only [Diffusion.sampleLoop, hm] at h
      exact (ih _ _ h).trans rfl

theorem postprocess_val_le (x : Tens) (i c h w : ℕ) :
    (postprocess x).val i c h w ≤ 255 := by
  show (⌊(clamp1 (x.val i c h w) + 1) / 2 * 255⌋).toNat ≤ 255
  have hle : clamp1 (x.val i c h w) ≤ 1 := min_le_left _ _
  have hb : (clamp1 (x.val i c h w) + 1) / 2 * 255 ≤ (255 : ℝ) := by
    linarith
  have hfloor : ⌊(clamp1 (x.val i c h w) + 1) / 2 * 255⌋ ≤ (255 : ℤ) := by
    have h2 := Int.floor_le_floor hb
    simpa using h2
  exact Int.toNat_le.mpr hfloor

/-- C3: on a timestep vector with every lane in `[0, T)`, the forward
noising operation returns `(x_t, epsilon)` where `epsilon` is exactly the
injected standard-normal draw (same shape as `x_0`) and lane `i` of `x_t`
is `sqrt(alpha_hat[t_i]) * x_0_i + sqrt(1 - alpha_hat[t_i]) * epsilon_i`,
the two scalars broadcast over channels, height and width. -/
theorem C3_noise_images (d : Diffusion) (n : ℕ) (x0 : Tens) (t : ℕ → ℤ)
    (epsv : Val4)
    (hrange : ∀ i < n, 0 ≤ t i ∧ t i < (d.noise_steps : ℤ)) :
    NoiseImagesSpec d n x0 t epsv := by
  have hcond : ∀ i < n,
      -(d.noise_steps : ℤ) ≤ t i ∧ t i < (d.noise_steps : ℤ) := by
    intro i hi
    obtain ⟨h0, h1⟩ := hrange i hi
    have hT : (0 : ℤ) ≤ (d.noise_steps : ℤ) := Int.natCast_nonneg _
    exact ⟨by omega, h1⟩
  unfold NoiseImagesSpec
  rw [Diffusion.noise_images, if_pos hcond]
  refine ⟨_, _, rfl, rfl, rfl, rfl, ?_⟩
  intro i c h w hi
  simp only [wrapIndex, if_neg (not_lt.mpr (hrange i hi).1)]

/-- C3 witness: two-step configuration, one lane, timestep 1, zero noise
draw. -/
theorem C3_noise_images_witness :
    (∀ i < 1, 0 ≤ (fun _ : ℕ => (1 : ℤ)) i ∧
      (fun _ : ℕ => (1 : ℤ)) i < (dSq.noise_steps : ℤ)) ∧
    NoiseImagesSpec dSq 1 tensOnes (fun _ => 1) zerosV :=
  ⟨by decide, C3_noise_images dSq 1 tensOnes (fun _ => 1) zerosV
    (by decide)⟩

/-- C1: for `T ≥ 2` and `n > 0`, the generation loop visits exactly the
timesteps `T-1, T-2, ..., 1`, strictly decreasing, one per iteration, and
every iteration whose predictor call succeeds replaces `x` by
`1/sqrt(alpha_t) * (x - ((1-alpha_t)/sqrt(1-alpha_hat_t)) * epsilon_hat)
 + sqrt(beta_t) * z`, with `z` the fresh injected noise when `n > 1` and
the zero array when `n = 1`. -/
theorem C1_generation_loop (d : Diffusion) (n : ℕ) (hT : 2 ≤ d.noise_steps)
    (hn : 0 < n) : GenLoopSpec d n := by
  have hlen : (revSteps d.noise_steps).length = d.noise_steps - 1 := by
    rw [revSteps, List.length_reverse, List.length_range']
  refine ⟨hlen, ?_, ?_⟩
  · intro k hk
    rw [List.getD_eq_getElem _ _ (by rw [hlen]; exact hk)]
    simp only [revSteps, List.getElem_reverse, List.length_range',
      List.getElem_range']
    omega
  · intro model z t ts x epshat hm
    simp only [Diffusion.sampleLoop, hm]
    rfl

/-- C1 witness: the five-step configuration with a singleton batch. -/
theorem C1_generation_loop_witness :
    2 ≤ dEx.noise_steps ∧ 0 < 1 ∧ GenLoopSpec dEx 1 :=
  ⟨by decide, by decide, C1_generation_loop dEx 1 (by decide) (by decide)⟩

/-- C4 (amended): the mode on exit does not depend on the mode on entry —
on normal completion the predictor is unconditionally put in training
mode, and when the predictor fails inside the loop the error propagates
with the predictor left in inference mode (the `model.train()` call is
skipped, there being no `finally`). -/
theorem C4_mode_on_exit (d : Diffusion) (model : Tens → ℕ → Option Tens)
    (n : ℕ) (xinit : Val4) (z : ℕ → Val4) (mode0 : Mode) :
    (d.sample model n xinit z mode0).2 =
      if ((d.sample model n xinit z mode0).1).isSome then Mode.training
      else Mode.inference := by
  unfold Diffusion.sample
  cases h : d.sampleLoop model n z (revSteps d.noise_steps)
      ⟨(n, 3, d.img_size, d.img_size), xinit⟩ with
  | none => simp [h]
  | some x => simp [h]

/-- C4 counterexample: with the predictor in training mode before the
call and a predictor that fails at the first step, the error surfaces
with the predictor in inference mode — the prior mode is not restored on
the failure path. -/
theorem C4_counterexample :
    (dSq.sample failPredictor 1 zerosV (fun _ => zerosV) Mode.training).2 =
      Mode.inference ∧
    Mode.inference ≠ Mode.training :=
  ⟨rfl, by decide⟩

/-- C7: every successful generation call returns the loop's final `x`
clamped to `[-1,1]`, rescaled by `(x+1)/2`, scaled by 255 and truncated
to unsigned 8-bit, with shape `(n, 3, img_size, img_size)` and every
value at most 255. -/
theorem C7_sample_output (d : Diffusion) (model : Tens → ℕ → Option Tens)
    (n : ℕ) (xinit : Val4) (z : ℕ → Val4) (mode0 : Mode)
    (h : ((d.sample model n xinit z mode0).1).isSome = true) :
    SampleOutputSpec d model n xinit z mode0 := by
  unfold SampleOutputSpec
  cases hl : d.sampleLoop model n z (revSteps d.noise_steps)
      ⟨(n, 3, d.img_size, d.img_size), xinit⟩ with
  | none =>
    simp [Diffusion.sample, hl] at h
  | some xf =>
    refine ⟨xf, postprocess xf, rfl, ?_, rfl, ?_, ?_⟩
    · simp [Diffusion.sample, hl]
    · have hs := sampleLoop_shape d model n z _ _ _ hl
      show xf.shape = _
      exact hs
    · intro i c hh w
      exact postprocess_val_le xf i c hh w

/-- C7 witness: two-step configuration, identity predictor, singleton
batch of zeros. -/
theorem C7_sample_output_witness :
    ((dSq.sample idPredictor 1 zerosV (fun _ => zerosV)
        Mode.training).1).isSome = true ∧
    SampleOutputSpec dSq idPredictor 1 zerosV (fun _ => zerosV)
      Mode.training :=
  ⟨rfl, C7_sample_output dSq idPredictor 1 zerosV (fun _ => zerosV)
    Mode.training rfl⟩

theorem Diffusion.alphaHatAt_lt_one (d : Diffusion) (hv : d.Valid) (t : ℕ)
    (ht : t < d.noise_steps) : d.alphaHatAt t < 1 := by
  induction t with
  | zero =>
    rw [d.alphaHatAt_zero (by omega)]
    exact (d.alphaAt_bounds hv 0 ht).2
  | succ k ih =>
    have h0 := d.alphaHatAt_bounds hv k (Nat.lt_of_succ_lt ht)
    have ha := d.alphaAt_bounds hv (k + 1) ht
    rw [d.alphaHatAt_succ k ht]
    nlinarith [h0.1, h0.2, ha.1, ha.2]

theorem reverse_step_scalar (a ah x0 eps : ℝ) (ha : 0 < a) (hah1 : ah < 1) :
    1 / Real.sqrt a * ((Real.sqrt ah * x0 + Real.sqrt (1 - ah) * eps) -
      (1 - a) / Real.sqrt (1 - ah) * eps) =
    Real.sqrt ah / Real.sqrt a * x0 +
      (a - ah) / (Real.sqrt a * Real.sqrt (1 - ah)) * eps := by
  have h1 : (0 : ℝ) < 1 - ah := by linarith
  have hs1 : (0 : ℝ) < Real.sqrt (1 - ah) := Real.sqrt_pos.mpr h1
  have hsa : (0 : ℝ) < Real.sqrt a := Real.sqrt_pos.mpr ha
  have hsq : Real.sqrt (1 - ah) * Real.sqrt (1 - ah) = 1 - ah :=
    Real.mul_self_sqrt h1.le
  have hs1n : Real.sqrt (1 - ah) ≠ 0 := ne_of_gt hs1
  have hsan : Real.sqrt a ≠ 0 := ne_of_gt hsa
  have key : Real.sqrt (1 - ah) - (1 - a) / Real.sqrt (1 - ah) =
      (a - ah) / Real.sqrt (1 - ah) := by
    rw [eq_div_iff hs1n, sub_mul, div_mul_cancel₀ _ hs1n, hsq]
    ring
  calc
    1 / Real.sqrt a * ((Real.sqrt ah * x0 + Real.sqrt (1 - ah) * eps) -
        (1 - a) / Real.sqrt (1 - ah) * eps)
      = 1 / Real.sqrt a * (Real.sqrt ah * x0 +
          (Real.sqrt (1 - ah) - (1 - a) / Real.sqrt (1 - ah)) * eps) := by
        ring
    _ = 1 / Real.sqrt a * (Real.sqrt ah * x0 +
          (a - ah) / Real.sqrt (1 - ah) * eps) := by rw [key]
    _ = Real.sqrt ah / Real.sqrt a * x0 +
          (a - ah) / (Real.sqrt a * Real.sqrt (1 - ah)) * eps := by
        field_simp
        ring

/-- C8 (amended): with `(x_t, epsilon)` from the forward process at
`1 ≤ t < T` and the predictor returning exactly `epsilon`, one reverse
update with no injected noise reconstructs the clean signal scaled by
`sqrt(alpha_hat[t-1])` — an exact algebraic identity, equal to `x_0` only
up to that factor — plus the explicit residual `epsilon` term. -/
theorem C8_roundtrip_identity (d : Diffusion) (hv : d.Valid) (t n : ℕ)
    (ht1 : 1 ≤ t) (htT : t < d.noise_steps) (x0 : Tens) (epsv : Val4) :
    RoundTripSpec d t n x0 epsv := by
  have ha := d.alphaAt_bounds hv t htT
  have hah := d.alphaHatAt_bounds hv t htT
  have hah1 := d.alphaHatAt_lt_one hv t htT
  have hahp := (d.alphaHatAt_bounds hv (t - 1) (by omega)).1
  have hsucc : d.alphaHatAt t = d.alphaHatAt (t - 1) * d.alphaAt t := by
    have h := d.alphaHatAt_succ (t - 1) (by omega)
    rw [Nat.sub_add_cancel ht1] at h
    exact h
  have hco : Real.sqrt (d.alphaHatAt t) / Real.sqrt (d.alphaAt t) =
      Real.sqrt (d.alphaHatAt (t - 1)) := by
    rw [hsucc, Real.sqrt_mul hahp.le, mul_div_assoc,
      div_self (ne_of_gt (Real.sqrt_pos.mpr ha.1)), mul_one]
  have hcond : ∀ i < n, -(d.noise_steps : ℤ) ≤ (fun _ : ℕ => (t : ℤ)) i ∧
      (fun _ : ℕ => (t : ℤ)) i < (d.noise_steps : ℤ) := by
    intro i hi
    show -(d.noise_steps : ℤ) ≤ (t : ℤ) ∧ (t : ℤ) < (d.noise_steps : ℤ)
    have hT : (0 : ℤ) ≤ (d.noise_steps : ℤ) := Int.natCast_nonneg _
    have h0 : (0 : ℤ) ≤ (t : ℤ) := Int.natCast_nonneg _
    exact ⟨by omega, by exact_mod_cast htT⟩
  unfold RoundTripSpec
  rw [Diffusion.noise_images, if_pos hcond]
  refine ⟨_, _, rfl, ?_⟩
  intro i c h w hi
  simp only [ddpmUpdate, sampleNoise, wrapIndex,
    if_neg (by omega : ¬((t : ℤ) < 0)), Int.toNat_natCast]
  rw [if_neg (by norm_num : ¬(1 < 1))]
  rw [mul_zero, add_zero]
  rw [reverse_step_scalar (d.alphaAt t) (d.alphaHatAt t) (x0.val i c h w)
    (epsv i c h w) ha.1 hah1]
  rw [hco]

/-- C8 witness for the amended identity: two-step configuration, `t = 1`,
one lane of ones with a zero noise draw. -/
theorem C8_roundtrip_identity_witness :
    dSq.Valid ∧ 1 ≤ 1 ∧ 1 < dSq.noise_steps ∧
    RoundTripSpec dSq 1 1 tensOnes zerosV :=
  ⟨⟨by norm_num [dSq], by norm_num [dSq], by norm_num [dSq],
      by norm_num [dSq]⟩, le_refl 1, by decide,
    C8_roundtrip_identity dSq
      ⟨by norm_num [dSq], by norm_num [dSq], by norm_num [dSq],
        by norm_num [dSq]⟩ 1 1 (le_refl 1) (by decide) tensOnes zerosV⟩

/-- C8 counterexample: on the two-step schedule `(T=2, 3/4, 15/16)` with
`x_0 = 1` everywhere, `t = 1` and a zero noise draw (so the predictor
returning exactly that noise contributes nothing), the one-step reverse
update yields `1/2`, not a value close to `x_0 = 1` — the reconstruction
carries the factor `sqrt(alpha_hat[0]) = 1/2`. -/
theorem C8_counterexample :
    ∃ xt eps,
      dSq.noise_images 1 tensOnes (fun _ => (1 : ℤ)) zerosV =
        some (xt, eps) ∧
      (ddpmUpdate (dSq.alphaAt 1) (dSq.alphaHatAt 1) (dSq.betaAt 1) xt eps
        (sampleNoise 1 xt zerosV)).val 0 0 0 0 = 1 / 2 ∧
      tensOnes.val 0 0 0 0 = 1 ∧ (1 / 2 : ℝ) ≠ 1 := by
  have hb0 : dSq.betaAt 0 = 3 / 4 := by
    rw [dSq.betaAt_eq 0 (by norm_num [dSq])]
    norm_num [dSq]
  have hb1 : dSq.betaAt 1 = 15 / 16 := by
    rw [dSq.betaAt_eq 1 (by norm_num [dSq])]
    norm_num [dSq]
  have ha0 : dSq.alphaAt 0 = 1 / 4 := by
    rw [dSq.alphaAt_eq 0 (by norm_num [dSq]), hb0]
    norm_num
  have ha1 : dSq.alphaAt 1 = 1 / 16 := by
    rw [dSq.alphaAt_eq 1 (by norm_num [dSq]), hb1]
    norm_num
  have hh1 : dSq.alphaHatAt 1 = 1 / 64 := by
    have h := dSq.alphaHatAt_succ 0 (by norm_num [dSq])
    rw [dSq.alphaHatAt_zero (by norm_num [dSq]), ha0, ha1] at h
    rw [h]
    norm_num
  have hs16 : Real.sqrt (1 / 16 : ℝ) = 1 / 4 := by
    rw [show (1 / 16 : ℝ) = (1 / 4) ^ 2 by norm_num]
    exact Real.sqrt_sq (by norm_num)
  have hs64 : Real.sqrt (1 / 64 : ℝ) = 1 / 8 := by
    rw [show (1 / 64 : ℝ) = (1 / 8) ^ 2 by norm_num]
    exact Real.sqrt_sq (by norm_num)
  have hcond : ∀ i < 1, -(dSq.noise_steps : ℤ) ≤ (fun _ : ℕ => (1 : ℤ)) i ∧
      (fun _ : ℕ => (1 : ℤ)) i < (dSq.noise_steps : ℤ) := by decide
  rw [Diffusion.noise_images, if_pos hcond]
  refine ⟨_, _, rfl, ?_, rfl, by norm_num⟩
  simp only [ddpmUpdate, sampleNoise, wrapIndex, tensOnes, onesV, zerosV]
  norm_num [ha1, hh1, hs16, hs64]

end

end DDPM
